import Mathlib

/-!
Verification of the rule-driven source-patching tool `scripts/fix-lint.py`.

The script applies a fixed catalog of textual fixes to files of a Go source
tree.  We embed its string transformations over `List Char` (Python `str`
values are modelled as lists of characters), its regular-expression engine as
a backtracking matcher over an abstract syntax tree covering the constructs
the catalog uses, and its runner as explicit state passing over an
association-list file system together with a log of the write operations
performed.

Recursions that consume a non-structural suffix of the input are expressed
with an explicit fuel argument initialised to the input length; the fuel is
exact (each step consumes at least one character), so the out-of-fuel branches
are unreachable for the initial fuel.
-/

namespace FixLint

/-- Concatenation of a list of character lists (used to model Python
`writelines` and the assembly of replacement results). -/
def joinAll : List (List Char) → List Char
  | [] => []
  | x :: xs => x ++ joinAll xs

/-- Concat-map over lists; used by the regex matcher to combine the results of
sequenced sub-matchers. -/
def catMap (f : α → List β) : List α → List β
  | [] => []
  | x :: xs => f x ++ catMap f xs

/-- `isPrefixCL p s` is true iff `p` is a prefix of `s` (character lists). -/
def isPrefixCL : List Char → List Char → Bool
  | [], _ => true
  | _ :: _, [] => false
  | x :: xs, y :: ys => if x = y then isPrefixCL xs ys else false

/-- Model of the Python substring test `needle in haystack`. -/
def containsSub (needle : List Char) : List Char → Bool
  | [] => isPrefixCL needle []
  | y :: ys => isPrefixCL needle (y :: ys) || containsSub needle ys

/-- Fuelled scan for `replaceAll`; the fuel bounds the number of characters
still to be examined. -/
def replaceAllFuel (old new : List Char) : Nat → List Char → List Char
  | _, [] => []
  | 0, s => s
  | fuel + 1, x :: s =>
    if (!old.isEmpty && isPrefixCL old (x :: s)) = true then
      new ++ replaceAllFuel old new fuel (List.drop old.length (x :: s))
    else
      x :: replaceAllFuel old new fuel s

/-- Model of Python `str.replace(old, new)` for the non-empty patterns the
catalog uses: scan left to right, replace each non-overlapping occurrence of
`old` by `new`.  (On the empty pattern, which the catalog never uses, this
model is the identity.) -/
def replaceAll (old new s : List Char) : List Char :=
  replaceAllFuel old new s.length s

/-- Split off the first line of a character list, keeping the terminating
newline with the line (the splitting step of Python `readlines`). -/
def breakLine : List Char → List Char × List Char
  | [] => ([], [])
  | x :: rest =>
    if x = '\n' then ([x], rest)
    else
      let p := breakLine rest
      (x :: p.1, p.2)

/-- Fuelled version of `pyReadlines`. -/
def pyReadlinesFuel : Nat → List Char → List (List Char)
  | _, [] => []
  | 0, s => [s]
  | fuel + 1, x :: rest =>
    let p := breakLine (x :: rest)
    p.1 :: pyReadlinesFuel fuel p.2

/-- Model of Python `f.readlines()`: split the content into lines, each
keeping its terminating newline; a final fragment without a newline is kept
as a last line. -/
def pyReadlines (s : List Char) : List (List Char) :=
  pyReadlinesFuel s.length s

/-- The line `remove_unused_code` prefixes to a matched declaration line:
`"\t//nolint:unused // Reserved for future use\n"`. -/
def markerLine : List Char := "\t//nolint:unused // Reserved for future use\n".data

/-- The marker text whose presence in a line suppresses the annotation:
`"//nolint:unused"`. -/
def nolintTag : List Char := "//nolint:unused".data

/-- The per-name condition of `remove_unused_code`:
`name in line and ("func " in line or "var " in line or name + " " in line)`. -/
def declCond (name line : List Char) : Bool :=
  containsSub name line &&
    (containsSub "func ".data line || containsSub "var ".data line ||
      containsSub (name ++ " ".data) line)

/-- One pass of the inner loop of `remove_unused_code` over a single line:
for each name in order, if the name condition holds and the line does not
already contain the marker text, the slot is overwritten with the marker
prefixed to the original line. -/
def markLinePass (names : List (List Char)) (line : List Char) : List Char :=
  names.foldl
    (fun acc name =>
      if declCond name line && !containsSub nolintTag line then markerLine ++ line
      else acc)
    line

/-- The collapsed marking condition of `markLinePass`: some name satisfies
`declCond` and the marker text does not occur in the line. -/
def anyDeclCond (names : List (List Char)) (line : List Char) : Bool :=
  names.any (fun n => declCond n line) && !containsSub nolintTag line

/-- File-level transformation of `remove_unused_code` for one catalog item:
read the lines, run the marking pass on each, write them back. -/
def annotateFileContent (names : List (List Char)) (c : List Char) : List Char :=
  joinAll ((pyReadlines c).map (markLinePass names))

/-- Whether the annotation pass inserted at least one marker (the spec's
`changed` flag for AnnotateDeclarations). -/
def annotChanged (names : List (List Char)) (c : List Char) : Bool :=
  (pyReadlines c).any (fun l => decide (markLinePass names l ≠ l))

/-- Abstract syntax of the regular-expression constructs used by the catalog
pattern `(if handler == nil \{\s+)t\.Error\((".*should return a handler")\)`:
literal characters, `.` (any character except newline), `\s` (whitespace),
concatenation, greedy Kleene star, and numbered capture groups. -/
inductive RE where
  | eps : RE
  | ch : Char → RE
  | dot : RE
  | ws : RE
  | cat : RE → RE → RE
  | star : RE → RE
  | grp : Nat → RE → RE

/-- One way a regex can match a prefix of the input: the consumed prefix, the
remaining suffix, and the captures `(group number, captured text)` recorded
along the way. -/
structure MatchRes where
  consumed : List Char
  rest : List Char
  caps : List (Nat × List Char)
deriving DecidableEq

/-- Python `\s`: space, tab, newline, carriage return, vertical tab, form
feed. -/
def isWsChar (c : Char) : Bool :=
  c == ' ' || c == '\t' || c == '\n' || c == '\r' || c == '\x0b' || c == '\x0c'

/-- Greedy iteration of a sub-matcher, at most `n` non-empty steps: all ways
to match `star a`, longest-first, ending with the empty match.  The sub-match
results are supplied by the function argument so that `mrun` can recurse
structurally. -/
def mstarF (m : List Char → List MatchRes) : Nat → List Char → List MatchRes
  | 0, s => [⟨[], s, []⟩]
  | n + 1, s =>
    catMap
      (fun ra =>
        if ra.consumed.isEmpty then []
        else
          (mstarF m n ra.rest).map
            (fun rr => ⟨ra.consumed ++ rr.consumed, rr.rest, ra.caps ++ rr.caps⟩))
      (m s)
    ++ [⟨[], s, []⟩]

/-- Backtracking matcher: all prefix matches of `r` against `s`, in the
backtracking engine's preference order (greedy quantifiers try longer matches
first), with captures.  `s.length + 1` bounds the number of non-empty star
iterations. -/
def mrun : RE → List Char → List MatchRes
  | .eps, s => [⟨[], s, []⟩]
  | .ch _, [] => []
  | .ch c, x :: xs => if x = c then [⟨[x], xs, []⟩] else []
  | .dot, [] => []
  | .dot, x :: xs => if x = '\n' then [] else [⟨[x], xs, []⟩]
  | .ws, [] => []
  | .ws, x :: xs => if isWsChar x then [⟨[x], xs, []⟩] else []
  | .cat a b, s =>
    catMap
      (fun ra =>
        (mrun b ra.rest).map
          (fun rb => ⟨ra.consumed ++ rb.consumed, rb.rest, ra.caps ++ rb.caps⟩))
      (mrun a s)
  | .grp n a, s =>
    (mrun a s).map (fun ra => ⟨ra.consumed, ra.rest, ra.caps ++ [(n, ra.consumed)]⟩)
  | .star a, s => mstarF (fun t => mrun a t) (s.length + 1) s

/-- An item of a substitution template: literal text or a `\n` group
reference. -/
inductive TItem where
  | lit : List Char → TItem
  | ref : Nat → TItem

/-- A substitution template is a sequence of template items. -/
abbrev Template := List TItem

/-- Value of group `n` in a capture list: the most recent capture wins (as in
Python, where a group's last match is kept). -/
def capLookup (caps : List (Nat × List Char)) (n : Nat) : List Char :=
  match caps.reverse.find? (fun p => p.1 == n) with
  | some p => p.2
  | none => []

/-- Render a substitution template against the captures of a match. -/
def render (t : Template) (caps : List (Nat × List Char)) : List Char :=
  joinAll (t.map (fun it =>
    match it with
    | .lit s => s
    | .ref n => capLookup caps n))

/-- Build the concatenation of single-character regexes for a literal
string. -/
def lits (s : String) : RE :=
  s.data.foldr (fun c acc => RE.cat (RE.ch c) acc) RE.eps

/-- Fuelled scan of Python `re.sub`: at each position take the backtracking
engine's preferred match if any; on a match emit the rendered template and
continue after the consumed text (after one copied character for a zero-width
match); otherwise copy one character.  Returns the new content and whether at
least one substitution was made. -/
def reSubFuel (r : RE) (t : Template) : Nat → List Char → List Char × Bool
  | _, [] =>
    (match (mrun r []).head? with
     | some res => (render t res.caps, true)
     | none => ([], false))
  | 0, s => (s, false)
  | fuel + 1, x :: xs =>
    match (mrun r (x :: xs)).head? with
    | some res =>
      if res.consumed.isEmpty then
        (render t res.caps ++ x :: (reSubFuel r t fuel xs).1, true)
      else
        (render t res.caps ++ (reSubFuel r t fuel (List.drop (res.consumed.length - 1) xs)).1,
          true)
    | none => (x :: (reSubFuel r t fuel xs).1, (reSubFuel r t fuel xs).2)

/-- Model of Python `re.sub(pattern, repl, content)` together with the
`changed` flag of the spec's RegexReplace matcher. -/
def reSub (r : RE) (t : Template) (s : List Char) : List Char × Bool :=
  reSubFuel r t s.length s

/-- Whether the pattern matches anywhere in the content (at any start
position, including the end-of-content position). -/
def hasMatchB (r : RE) : List Char → Bool
  | [] => !(mrun r []).isEmpty
  | x :: xs => !(mrun r (x :: xs)).isEmpty || hasMatchB r xs

/-- Whether the regex has a match consuming the whole of `m`. -/
def fullMatchB (r : RE) (m : List Char) : Bool :=
  (mrun r m).any (fun res => res.rest.isEmpty)

/-- The regex of `fix_nil_pointer_checks`:
`(if handler == nil \{\s+)t\.Error\((".*should return a handler")\)`. -/
def nilPattern : RE :=
  RE.cat
    (RE.grp 1 (RE.cat (lits "if handler == nil \x7b") (RE.cat RE.ws (RE.star RE.ws))))
    (RE.cat (lits "t.Error(")
      (RE.cat
        (RE.grp 2
          (RE.cat (RE.ch '"')
            (RE.cat (RE.star RE.dot)
              (RE.cat (lits "should return a handler") (RE.ch '"')))))
        (RE.ch ')')))

/-- The replacement template of `fix_nil_pointer_checks`: `\1t.Fatal(\2)`. -/
def nilTemplate : Template :=
  [TItem.ref 1, TItem.lit "t.Fatal(".data, TItem.ref 2, TItem.lit ")".data]

/-- The state a run threads through the fixers: the file system as an
association list from path to content, plus a log of every write operation
performed (path and bytes written). -/
structure RunState where
  fs : List (String × List Char)
  writes : List (String × List Char)
deriving DecidableEq

/-- `os.path.exists` / reading a file: the content stored under a path, if
any. -/
def fsLookup (fs : List (String × List Char)) (p : String) : Option (List Char) :=
  match fs.find? (fun e => decide (e.1 = p)) with
  | some e => some e.2
  | none => none

/-- Overwrite the content stored under a path (appending a new entry when the
path is absent, as `open(path, 'w')` would create the file). -/
def fsWrite (fs : List (String × List Char)) (p : String) (c : List Char) :
    List (String × List Char) :=
  if fs.any (fun e => decide (e.1 = p)) then
    fs.map (fun e => if e.1 = p then (p, c) else e)
  else
    fs ++ [(p, c)]

/-- Perform a write: update the file system and log the operation. -/
def doWrite (st : RunState) (p : String) (c : List Char) : RunState :=
  ⟨fsWrite st.fs p c, st.writes ++ [(p, c)]⟩

/-- The target files of `fix_nil_pointer_checks`. -/
def testFiles : List String :=
  ["internal/server/handlers/abductive_test.go",
   "internal/server/handlers/backtracking_test.go",
   "internal/server/handlers/case_based_test.go",
   "internal/server/handlers/dual_process_test.go",
   "internal/server/handlers/symbolic_test.go",
   "internal/server/handlers/unknown_unknowns_test.go"]

/-- One loop iteration of `fix_nil_pointer_checks`: skip a missing file,
otherwise apply `re.sub` and write the result back unconditionally. -/
def nilPointerStep (st : RunState) (p : String) : RunState :=
  match fsLookup st.fs p with
  | none => st
  | some c => doWrite st p (reSub nilPattern nilTemplate c).1

/-- `fix_nil_pointer_checks`: process the six handler test files in order. -/
def fix_nil_pointer_checks (st : RunState) : RunState :=
  testFiles.foldl nilPointerStep st

/-- The target files of `fix_file_permissions`. -/
def permFiles : List String :=
  ["internal/config/config_test.go", "internal/storage/sqlite_test.go"]

/-- One loop iteration of `fix_file_permissions`: skip a missing file,
otherwise replace every `0644` by `0600` and write back unconditionally. -/
def filePermStep (st : RunState) (p : String) : RunState :=
  match fsLookup st.fs p with
  | none => st
  | some c => doWrite st p (replaceAll "0644".data "0600".data c)

/-- `fix_file_permissions`: process the two test files in order. -/
def fix_file_permissions (st : RunState) : RunState :=
  permFiles.foldl filePermStep st

/-- The target file of `fix_empty_branch`. -/
def configPath : String := "internal/storage/config.go"

/-- The exact multi-line block `fix_empty_branch` looks for (tabs and
newlines included). -/
def emptyBranchOld : List Char :=
  "if err := os.MkdirAll(dir, 0750); err != nil \x7b\n\t\t\t// Log warning but don\x27t fail - factory will handle this\n\t\t\x7d".data

/-- The replacement block of `fix_empty_branch`. -/
def emptyBranchNew : List Char :=
  "if err := os.MkdirAll(dir, 0750); err != nil \x7b\n\t\t\tlog.Printf(\"warning: failed to create SQLite directory %s: %v (factory will handle this)\", dir, err)\n\t\t\x7d".data

/-- `fix_empty_branch`: return if the config file is missing, otherwise
replace the exact block and write back unconditionally. -/
def fix_empty_branch (st : RunState) : RunState :=
  match fsLookup st.fs configPath with
  | none => st
  | some c => doWrite st configPath (replaceAll emptyBranchOld emptyBranchNew c)

/-- One entry of the `fix_unused_assignments` catalog. -/
structure UnusedFix where
  file : String
  old : List Char
  new : List Char

/-- The five entries of the `fix_unused_assignments` catalog. -/
def unusedFixes : List UnusedFix :=
  [⟨"internal/server/handlers/branches_test.go",
    "\t_, listResp, _ := handler.HandleListBranches(ctx, req, EmptyRequest\x7b\x7d)".data,
    "\t_, _, _ = handler.HandleListBranches(ctx, req, EmptyRequest\x7b\x7d)".data⟩,
   ⟨"cmd/server/main_test.go",
    "\t\ttransport := &mcp.StdioTransport\x7b\x7d\n\t\tif transport == nil \x7b\n\t\t\tt.Fatal(\"transport is nil\")\n\t\t\x7d".data,
    "\t\ttransport := &mcp.StdioTransport\x7b\x7d\n\t\tif transport == nil \x7b\n\t\t\tt.Fatal(\"transport is nil\")\n\t\t\x7d\n\t\t_ = transport // Used for nil check only".data⟩,
   ⟨"internal/integration/synthesizer.go",
    "\t\t\t\thasCausal = true".data,
    "\t\t\t\t_ = hasCausal // Will be used in future enhancements".data⟩,
   ⟨"internal/integration/synthesizer.go",
    "\t\t\t\thasTemporal = true".data,
    "\t\t\t\t_ = hasTemporal // Will be used in future enhancements".data⟩,
   ⟨"internal/metacognition/unknown_unknowns.go",
    "\tseverity := 0.7".data,
    "\t_ = 0.7 // severity - reserved for future severity scoring".data⟩]

/-- One loop iteration of `fix_unused_assignments`: skip a missing file; if
the old text occurs in the content, replace it and write back, otherwise do
nothing.  This is the only fixer whose write is guarded by a match test. -/
def unusedAssignStep (st : RunState) (fx : UnusedFix) : RunState :=
  match fsLookup st.fs fx.file with
  | none => st
  | some c =>
    if containsSub fx.old c then doWrite st fx.file (replaceAll fx.old fx.new c)
    else st

/-- `fix_unused_assignments`: process the five catalog entries in order. -/
def fix_unused_assignments (st : RunState) : RunState :=
  unusedFixes.foldl unusedAssignStep st

/-- One entry of the `remove_unused_code` catalog. -/
structure UnusedItem where
  file : String
  items : List (List Char)

/-- The four entries of the `remove_unused_code` catalog. -/
def unusedItems : List UnusedItem :=
  [⟨"internal/integration/evidence_pipeline.go",
    ["_calculateScoreAdjustment".data, "_evidenceRelatesToOption".data,
     "toLower".data, "contains".data]⟩,
   ⟨"internal/storage/sqlite.go",
    ["_insightCounter".data, "_validationCounter".data, "_relationshipCounter".data]⟩,
   ⟨"internal/validation/logic.go",
    ["_existentials".data, "_extractAtomicPropositions".data]⟩,
   ⟨"internal/modes/error_recovery_test.go", ["recentBranchIDs".data]⟩]

/-- One loop iteration of `remove_unused_code`: skip a missing file,
otherwise annotate the lines and write them back unconditionally. -/
def removeUnusedStep (st : RunState) (it : UnusedItem) : RunState :=
  match fsLookup st.fs it.file with
  | none => st
  | some c => doWrite st it.file (annotateFileContent it.items c)

/-- `remove_unused_code`: process the four catalog items in order. -/
def remove_unused_code (st : RunState) : RunState :=
  unusedItems.foldl removeUnusedStep st

/-- The kinds of fix the spec's data model distinguishes, with their
parameters. -/
inductive FixKind where
  | literalReplace : List Char → List Char → FixKind
  | regexReplace : RE → Template → FixKind
  | annotateDecls : List (List Char) → FixKind

/-- The spec's Matcher/Annotator contract
`apply(content, descriptor) -> (newContent, changed)`, dispatching on the
descriptor kind; `changed` is true iff a match/insertion occurred. -/
def applyFix : FixKind → List Char → List Char × Bool
  | .literalReplace old new, c => (replaceAll old new c, containsSub old c)
  | .regexReplace r t, c => reSub r t c
  | .annotateDecls names, c => (annotateFileContent names c, annotChanged names c)

/-- Characters that may occur in a Go identifier. -/
def isIdentChar (c : Char) : Bool :=
  c.isAlpha || c.isDigit || c == '_'

/-- Whether a position boundary is acceptable before an identifier occurrence:
start of line, or a non-identifier character. -/
def boundaryOk (prev : Option Char) : Bool :=
  match prev with
  | none => true
  | some c => !isIdentChar c

/-- Whether the list starts with a whitespace character. -/
def wsAfter (l : List Char) : Bool :=
  match l with
  | [] => false
  | c :: _ => isWsChar c

/-- Scan for an occurrence of `name` as an identifier followed by whitespace,
tracking the previous character for the left boundary. -/
def identWsScan (name : List Char) : Option Char → List Char → Bool
  | _, [] => false
  | prev, x :: rest =>
    (boundaryOk prev && isPrefixCL name (x :: rest) &&
      wsAfter (List.drop name.length (x :: rest)))
    || identWsScan name (some x) rest

/-- Modelled from the spec: `name` occurs in the line as an identifier
(not as part of a longer identifier) followed by whitespace. -/
def identFollowedByWs (name line : List Char) : Bool :=
  identWsScan name none line

/-- Modelled from the spec: Go declaration keywords, for the spec's "contains
a declaration keyword". -/
def specDeclKeywords : List (List Char) :=
  ["func".data, "var".data, "const".data, "type".data]

/-- Modelled from the spec: the line "looks like a declaration" — it contains
a declaration keyword or the name occurs as an identifier followed by
whitespace. -/
def specLooksLikeDecl (name line : List Char) : Bool :=
  specDeclKeywords.any (fun k => containsSub k line) || identFollowedByWs name line

/-- Modelled from the spec: the marking predicate of claim C4 — the line
textually contains the name, looks like a declaration, and is not already
marked. -/
def specMarks (name line : List Char) : Bool :=
  containsSub name line && specLooksLikeDecl name line && !containsSub nolintTag line

/-- `interleave [s0, s1, ..., sk] [m1, ..., mk] = s0 ++ m1 ++ s1 ++ ... ++ mk ++ sk`:
a decomposition of a text into untouched segments separated by matched
regions. -/
def interleave : List (List Char) → List (List Char) → List Char
  | [], _ => []
  | s :: _, [] => s
  | s :: ss, m :: ms => s ++ m ++ interleave ss ms

/-- The empty-branch block with the tab indentation replaced by spaces: a
whitespace-drifted variant used to exhibit that matching is byte-exact. -/
def emptyBranchSpaced : List Char :=
  "if err := os.MkdirAll(dir, 0750); err != nil \x7b\n   // Log warning but don\x27t fail - factory will handle this\n  \x7d".data

end FixLint

namespace FixLint

/-! ### Helper lemmas -/

theorem head?_mem {α : Type} {l : List α} {a : α} (h : l.head? = some a) : a ∈ l := by
  cases l with
  | nil => simp at h
  | cons x xs => simp at h; simp [h]

theorem catMap_mem {α β : Type} (f : α → List β) (l : List α) (b : β) :
    b ∈ catMap f l ↔ ∃ a ∈ l, b ∈ f a := by
  induction l with
  | nil => simp [catMap]
  | cons x xs ih => simp [catMap, List.mem_append, ih]

theorem joinAll_map_fixed {f : List Char → List Char} :
    ∀ L : List (List Char), (∀ x ∈ L, f x = x) → joinAll (L.map f) = joinAll L := by
  intro L
  induction L with
  | nil => intro _; rfl
  | cons x xs ih =>
    intro h
    simp only [List.map_cons, joinAll]
    rw [h x (by simp), ih (fun y hy => h y (by simp [hy]))]

theorem isPrefixCL_append_drop :
    ∀ (p s : List Char), isPrefixCL p s = true → p ++ List.drop p.length s = s := by
  intro p
  induction p with
  | nil => intro s _; simp
  | cons a as ih =>
    intro s h
    cases s with
    | nil => simp [isPrefixCL] at h
    | cons b bs =>
      simp only [isPrefixCL] at h
      split at h
      · next hab =>
        simp only [List.length_cons, List.cons_append, List.drop_succ_cons]
        rw [hab, ih bs h]
      · exact absurd h (by simp)

theorem replaceAllFuel_of_not_contains (old new : List Char) :
    ∀ (fuel : Nat) (c : List Char), containsSub old c = false →
      replaceAllFuel old new fuel c = c := by
  intro fuel
  induction fuel with
  | zero => intro c _; cases c <;> rfl
  | succ n ih =>
    intro c h
    cases c with
    | nil => rfl
    | cons x s =>
      simp only [containsSub, Bool.or_eq_false_iff] at h
      simp only [replaceAllFuel, h.1, Bool.and_false, if_neg]
      rw [ih s h.2]
      simp

theorem replaceAll_of_not_contains (old new c : List Char)
    (h : containsSub old c = false) : replaceAll old new c = c :=
  replaceAllFuel_of_not_contains old new c.length c h

theorem interleave_cons_head (x : Char) (g : List Char) (gs ms : List (List Char)) :
    interleave ((x :: g) :: gs) ms = x :: interleave (g :: gs) ms := by
  cases ms <;> simp [interleave]

theorem marker_prepend_ne (line : List Char) : markerLine ++ line ≠ line := by
  intro h
  have hl := congrArg List.length h
  simp only [List.length_append] at hl
  have h44 : markerLine.length = 44 := by decide
  omega

theorem foldl_mark_aux (M : List Char) (p : List Char → Bool) :
    ∀ (names : List (List Char)) (acc : List Char),
      names.foldl (fun acc name => if p name then M else acc) acc
        = if names.any p then M else acc := by
  intro names
  induction names with
  | nil => intro acc; simp
  | cons n ns ih =>
    intro acc
    simp only [List.foldl_cons, List.any_cons]
    rw [ih]
    by_cases hp : p n = true
    · simp [hp]
    · rw [Bool.not_eq_true] at hp
      simp [hp]

theorem markLinePass_collapse (names : List (List Char)) (line : List Char) :
    markLinePass names line
      = if anyDeclCond names line then markerLine ++ line else line := by
  unfold markLinePass anyDeclCond
  rw [foldl_mark_aux]
  cases hn : containsSub nolintTag line
  · simp [hn]
  · simp [hn]

theorem breakLine_append : ∀ s : List Char, (breakLine s).1 ++ (breakLine s).2 = s := by
  intro s
  induction s with
  | nil => rfl
  | cons x rest ih =>
    simp only [breakLine]
    split
    · simp
    · simp only [List.cons_append, ih]

theorem joinAll_pyReadlinesFuel : ∀ (fuel : Nat) (s : List Char),
    joinAll (pyReadlinesFuel fuel s) = s := by
  intro fuel
  induction fuel with
  | zero => intro s; cases s <;> simp [pyReadlinesFuel, joinAll]
  | succ n ih =>
    intro s
    cases s with
    | nil => rfl
    | cons x rest =>
      simp only [pyReadlinesFuel, joinAll]
      rw [ih]
      exact breakLine_append (x :: rest)

theorem joinAll_pyReadlines (s : List Char) : joinAll (pyReadlines s) = s :=
  joinAll_pyReadlinesFuel s.length s

theorem mstarF_splits (m : List Char → List MatchRes)
    (hm : ∀ s res, res ∈ m s → res.consumed ++ res.rest = s) :
    ∀ (n : Nat) (s : List Char) (res : MatchRes), res ∈ mstarF m n s →
      res.consumed ++ res.rest = s := by
  intro n
  induction n with
  | zero =>
    intro s res h
    simp only [mstarF, List.mem_singleton] at h
    subst h
    rfl
  | succ k ih =>
    intro s res h
    simp only [mstarF, List.mem_append, List.mem_singleton] at h
    rcases h with h | h
    · rw [catMap_mem] at h
      obtain ⟨ra, hra, hres⟩ := h
      split at hres
      · simp at hres
      · simp only [List.mem_map] at hres
        obtain ⟨rr, hrr, hres⟩ := hres
        subst hres
        have h1 := hm s ra hra
        have h2 := ih ra.rest rr hrr
        simp only [List.append_assoc, h2, h1]
    · subst h
      rfl

theorem mrun_splits : ∀ (r : RE) (s : List Char) (res : MatchRes), res ∈ mrun r s →
    res.consumed ++ res.rest = s := by
  intro r
  induction r with
  | eps =>
    intro s res h
    simp only [mrun, List.mem_singleton] at h
    subst h
    rfl
  | ch c =>
    intro s res h
    cases s with
    | nil => simp [mrun] at h
    | cons x xs =>
      simp only [mrun] at h
      split at h
      · simp only [List.mem_singleton] at h
        subst h
        rfl
      · simp at h
  | dot =>
    intro s res h
    cases s with
    | nil => simp [mrun] at h
    | cons x xs =>
      simp only [mrun] at h
      split at h
      · simp at h
      · simp only [List.mem_singleton] at h
        subst h
        rfl
  | ws =>
    intro s res h
    cases s with
    | nil => simp [mrun] at h
    | cons x xs =>
      simp only [mrun] at h
      split at h
      · simp only [List.mem_singleton] at h
        subst h
        rfl
      · simp at h
  | cat a b iha ihb =>
    intro s res h
    simp only [mrun] at h
    rw [catMap_mem] at h
    obtain ⟨ra, hra, hres⟩ := h
    simp only [List.mem_map] at hres
    obtain ⟨rb, hrb, hres⟩ := hres
    subst hres
    have h1 := iha s ra hra
    have h2 := ihb ra.rest rb hrb
    simp only [List.append_assoc, h2, h1]
  | grp n a iha =>
    intro s res h
    simp only [mrun, List.mem_map] at h
    obtain ⟨ra, hra, hres⟩ := h
    subst hres
    exact iha s ra hra
  | star a iha =>
    intro s res h
    simp only [mrun] at h
    exact mstarF_splits _ iha _ s res h

theorem mstarF_ext (m : List Char → List MatchRes)
    (hext : ∀ s t res, res ∈ m s →
      (⟨res.consumed, res.rest ++ t, res.caps⟩ : MatchRes) ∈ m (s ++ t)) :
    ∀ (n : Nat) (s t : List Char) (res : MatchRes), res ∈ mstarF m n s →
      ∀ k, n ≤ k →
        (⟨res.consumed, res.rest ++ t, res.caps⟩ : MatchRes) ∈ mstarF m k (s ++ t) := by
  intro n
  induction n with
  | zero =>
    intro s t res h k _
    simp only [mstarF, List.mem_singleton] at h
    subst h
    cases k with
    | zero => simp [mstarF]
    | succ k' => simp [mstarF]
  | succ j ih =>
    intro s t res h k hk
    obtain ⟨k', rfl⟩ : ∃ k', k = k' + 1 := ⟨k - 1, by omega⟩
    simp only [mstarF, List.mem_append, List.mem_singleton] at h
    rcases h with h | h
    · rw [catMap_mem] at h
      obtain ⟨ra, hra, hres⟩ := h
      split at hres
      · simp at hres
      · next hne =>
        simp only [List.mem_map] at hres
        obtain ⟨rr, hrr, hres⟩ := hres
        subst hres
        have hra' := hext s t ra hra
        have hrr' := ih ra.rest t rr hrr k' (by omega)
        simp only [mstarF, List.mem_append]
        left
        rw [catMap_mem]
        refine ⟨⟨ra.consumed, ra.rest ++ t, ra.caps⟩, hra', ?_⟩
        split
        · next he => simp at he; simp [he] at hne
        · simp only [List.mem_map]
          exact ⟨⟨rr.consumed, rr.rest ++ t, rr.caps⟩, hrr', by simp [List.append_assoc]⟩
    · subst h
      simp [mstarF]

theorem mrun_ext : ∀ (r : RE) (s t : List Char) (res : MatchRes), res ∈ mrun r s →
    (⟨res.consumed, res.rest ++ t, res.caps⟩ : MatchRes) ∈ mrun r (s ++ t) := by
  intro r
  induction r with
  | eps =>
    intro s t res h
    simp only [mrun, List.mem_singleton] at h
    subst h
    simp [mrun]
  | ch c =>
    intro s t res h
    cases s with
    | nil => simp [mrun] at h
    | cons x xs =>
      simp only [mrun] at h
      split at h
      · next hx =>
        simp only [List.mem_singleton] at h
        subst h
        simp [mrun, hx]
      · simp at h
  | dot =>
    intro s t res h
    cases s with
    | nil => simp [mrun] at h
    | cons x xs =>
      simp only [mrun] at h
      split at h
      · simp at h
      · next hx =>
        simp only [List.mem_singleton] at h
        subst h
        simp [mrun, hx]
  | ws =>
    intro s t res h
    cases s with
    | nil => simp [mrun] at h
    | cons x xs =>
      simp only [mrun] at h
      split at h
      · next hx =>
        simp only [List.mem_singleton] at h
        subst h
        simp [mrun, hx]
      · simp at h
  | cat a b iha ihb =>
    intro s t res h
    simp only [mrun] at h
    rw [catMap_mem] at h
    obtain ⟨ra, hra, hres⟩ := h
    simp only [List.mem_map] at hres
    obtain ⟨rb, hrb, hres⟩ := hres
    subst hres
    have hra' := iha s t ra hra
    have hrb' := ihb ra.rest t rb hrb
    simp only [mrun]
    rw [catMap_mem]
    exact ⟨⟨ra.consumed, ra.rest ++ t, ra.caps⟩, hra',
      by simp only [List.mem_map]; exact ⟨⟨rb.consumed, rb.rest ++ t, rb.caps⟩, hrb', rfl⟩⟩
  | grp n a iha =>
    intro s t res h
    simp only [mrun, List.mem_map] at h
    obtain ⟨ra, hra, hres⟩ := h
    subst hres
    have hra' := iha s t ra hra
    simp only [mrun, List.mem_map]
    exact ⟨⟨ra.consumed, ra.rest ++ t, ra.caps⟩, hra', rfl⟩
  | star a iha =>
    intro s t res h
    simp only [mrun] at h ⊢
    rw [List.length_append]
    exact mstarF_ext _ iha _ s t res h (s.length + t.length + 1) (by omega)

theorem mstarF_restrict (m : List Char → List MatchRes)
    (hext : ∀ s t res, res ∈ m s →
      (⟨res.consumed, res.rest ++ t, res.caps⟩ : MatchRes) ∈ m (s ++ t))
    (hres : ∀ s res, res ∈ m s →
      (⟨res.consumed, [], res.caps⟩ : MatchRes) ∈ m res.consumed) :
    ∀ (n : Nat) (s : List Char) (res : MatchRes), res ∈ mstarF m n s →
      ∀ k, res.consumed.length < k →
        (⟨res.consumed, [], res.caps⟩ : MatchRes) ∈ mstarF m k res.consumed := by
  intro n
  induction n with
  | zero =>
    intro s res h k hk
    simp only [mstarF, List.mem_singleton] at h
    subst h
    obtain ⟨k', rfl⟩ : ∃ k', k = k' + 1 := ⟨k - 1, by omega⟩
    simp [mstarF]
  | succ j ih =>
    intro s res h k hk
    simp only [mstarF, List.mem_append, List.mem_singleton] at h
    rcases h with h | h
    · rw [catMap_mem] at h
      obtain ⟨ra, hra, hres'⟩ := h
      split at hres'
      · simp at hres'
      · next hne =>
        simp only [List.mem_map] at hres'
        obtain ⟨rr, hrr, hres'⟩ := hres'
        subst hres'
        simp only at hk ⊢
        have hlen : 1 ≤ ra.consumed.length := by
          cases hc : ra.consumed with
          | nil => simp [hc] at hne
          | cons _ _ => simp [hc]
        obtain ⟨k', rfl⟩ : ∃ k', k = k' + 1 := ⟨k - 1, by omega⟩
        have h1 : (⟨ra.consumed, [], ra.caps⟩ : MatchRes) ∈ m ra.consumed :=
          hres s ra hra
        have h2 : (⟨ra.consumed, rr.consumed, ra.caps⟩ : MatchRes)
            ∈ m (ra.consumed ++ rr.consumed) := by
          have := hext ra.consumed rr.consumed ⟨ra.consumed, [], ra.caps⟩ h1
          simpa using this
        have h3 : (⟨rr.consumed, [], rr.caps⟩ : MatchRes) ∈ mstarF m k' rr.consumed := by
          apply ih ra.rest rr hrr
          simp only [List.length_append] at hk
          omega
        simp only [mstarF, List.mem_append]
        left
        rw [catMap_mem]
        refine ⟨⟨ra.consumed, rr.consumed, ra.caps⟩, h2, ?_⟩
        split
        · next he => simp at he; simp [he] at hne
        · simp only [List.mem_map]
          exact ⟨⟨rr.consumed, [], rr.caps⟩, h3, by simp⟩
    · subst h
      simp only
      obtain ⟨k', rfl⟩ : ∃ k', k = k' + 1 := ⟨k - 1, by omega⟩
      simp [mstarF]

theorem mrun_restrict : ∀ (r : RE) (s : List Char) (res : MatchRes), res ∈ mrun r s →
    (⟨res.consumed, [], res.caps⟩ : MatchRes) ∈ mrun r res.consumed := by
  intro r
  induction r with
  | eps =>
    intro s res h
    simp only [mrun, List.mem_singleton] at h
    subst h
    simp [mrun]
  | ch c =>
    intro s res h
    cases s with
    | nil => simp [mrun] at h
    | cons x xs =>
      simp only [mrun] at h
      split at h
      · next hx =>
        simp only [List.mem_singleton] at h
        subst h
        simp [mrun, hx]
      · simp at h
  | dot =>
    intro s res h
    cases s with
    | nil => simp [mrun] at h
    | cons x xs =>
      simp only [mrun] at h
      split at h
      · simp at h
      · next hx =>
        simp only [List.mem_singleton] at h
        subst h
        simp [mrun, hx]
  | ws =>
    intro s res h
    cases s with
    | nil => simp [mrun] at h
    | cons x xs =>
      simp only [mrun] at h
      split at h
      · next hx =>
        simp only [List.mem_singleton] at h
        subst h
        simp [mrun, hx]
      · simp at h
  | cat a b iha ihb =>
    intro s res h
    simp only [mrun] at h ⊢
    rw [catMap_mem] at h
    obtain ⟨ra, hra, hres⟩ := h
    simp only [List.mem_map] at hres
    obtain ⟨rb, hrb, hres⟩ := hres
    subst hres
    have h1 := iha s ra hra
    have h2 := ihb ra.rest rb hrb
    have h1' : (⟨ra.consumed, rb.consumed, ra.caps⟩ : MatchRes)
        ∈ mrun a (ra.consumed ++ rb.consumed) := by
      have := mrun_ext a ra.consumed rb.consumed ⟨ra.consumed, [], ra.caps⟩ h1
      simpa using this
    rw [catMap_mem]
    refine ⟨⟨ra.consumed, rb.consumed, ra.caps⟩, h1', ?_⟩
    simp only [List.mem_map]
    exact ⟨⟨rb.consumed, [], rb.caps⟩, h2, by simp⟩
  | grp n a iha =>
    intro s res h
    simp only [mrun, List.mem_map] at h ⊢
    obtain ⟨ra, hra, hres⟩ := h
    subst hres
    exact ⟨⟨ra.consumed, [], ra.caps⟩, iha s ra hra, rfl⟩
  | star a iha =>
    intro s res h
    simp only [mrun] at h ⊢
    exact mstarF_restrict _ (mrun_ext a) iha _ s res h
      (res.consumed.length + 1) (by omega)

theorem fullMatchB_of_mem (r : RE) (s : List Char) (res : MatchRes)
    (h : res ∈ mrun r s) : fullMatchB r res.consumed = true := by
  unfold fullMatchB
  rw [List.any_eq_true]
  exact ⟨⟨res.consumed, [], res.caps⟩, mrun_restrict r s res h, by simp⟩

theorem mrun_ne_nil_of_head?_some {r : RE} {s : List Char} {res : MatchRes}
    (h : (mrun r s).head? = some res) : (mrun r s).isEmpty = false := by
  cases hm : mrun r s with
  | nil => rw [hm] at h; simp at h
  | cons _ _ => simp

theorem mrun_nil_of_head?_none {r : RE} {s : List Char}
    (h : (mrun r s).head? = none) : mrun r s = [] := by
  cases hm : mrun r s with
  | nil => rfl
  | cons _ _ => rw [hm] at h; simp at h

theorem reSubFuel_snd (r : RE) (t : Template) :
    ∀ (fuel : Nat) (s : List Char), s.length ≤ fuel →
      (reSubFuel r t fuel s).2 = hasMatchB r s := by
  intro fuel
  induction fuel with
  | zero =>
    intro s hs
    have hnil : s = [] := by
      cases s with
      | nil => rfl
      | cons x xs => simp at hs
    subst hnil
    cases hm : (mrun r []).head? with
    | none =>
      have h0 := mrun_nil_of_head?_none hm
      simp [reSubFuel, hm, hasMatchB, h0]
    | some res =>
      have h0 := mrun_ne_nil_of_head?_some hm
      simp [reSubFuel, hm, hasMatchB, h0]
  | succ n ih =>
    intro s hs
    cases s with
    | nil =>
      cases hm : (mrun r []).head? with
      | none =>
        have h0 := mrun_nil_of_head?_none hm
        simp [reSubFuel, hm, hasMatchB, h0]
      | some res =>
        have h0 := mrun_ne_nil_of_head?_some hm
        simp [reSubFuel, hm, hasMatchB, h0]
    | cons x xs =>
      cases hm : (mrun r (x :: xs)).head? with
      | none =>
        have h0 := mrun_nil_of_head?_none hm
        simp only [reSubFuel, hm, hasMatchB, h0]
        rw [ih xs (by simp at hs; omega)]
        simp
      | some res =>
        have h0 := mrun_ne_nil_of_head?_some hm
        simp only [reSubFuel, hm, hasMatchB, h0]
        split <;> simp

theorem reSubFuel_fst_of_not_changed (r : RE) (t : Template) :
    ∀ (fuel : Nat) (s : List Char), (reSubFuel r t fuel s).2 = false →
      (reSubFuel r t fuel s).1 = s := by
  intro fuel
  induction fuel with
  | zero =>
    intro s h
    cases s with
    | nil =>
      cases hm : (mrun r []).head? with
      | none => simp [reSubFuel, hm]
      | some res => simp [reSubFuel, hm] at h
    | cons x xs => rfl
  | succ n ih =>
    intro s h
    cases s with
    | nil =>
      cases hm : (mrun r []).head? with
      | none => simp [reSubFuel, hm]
      | some res => simp [reSubFuel, hm] at h
    | cons x xs =>
      cases hm : (mrun r (x :: xs)).head? with
      | none =>
        simp only [reSubFuel, hm] at h ⊢
        rw [ih xs h]
      | some res =>
        simp only [reSubFuel, hm] at h
        split at h <;> simp at h

theorem reSub_snd (r : RE) (t : Template) (s : List Char) :
    (reSub r t s).2 = hasMatchB r s :=
  reSubFuel_snd r t s.length s (le_refl _)

theorem reSub_fst_of_not_changed (r : RE) (t : Template) (s : List Char)
    (h : (reSub r t s).2 = false) : (reSub r t s).1 = s :=
  reSubFuel_fst_of_not_changed r t s.length s h

theorem annotate_of_not_changed (names : List (List Char)) (c : List Char)
    (h : annotChanged names c = false) : annotateFileContent names c = c := by
  unfold annotChanged at h
  unfold annotateFileContent
  rw [joinAll_map_fixed]
  · exact joinAll_pyReadlines c
  · intro l hl
    rw [List.any_eq_false] at h
    have := h l hl
    simpa using this

theorem applyFix_noop_of_not_changed (d : FixKind) (x : List Char)
    (h : (applyFix d x).2 = false) : (applyFix d x).1 = x := by
  cases d with
  | literalReplace old new =>
    simp only [applyFix] at h ⊢
    exact replaceAll_of_not_contains old new x h
  | regexReplace r t =>
    exact reSub_fst_of_not_changed r t x h
  | annotateDecls names =>
    simp only [applyFix] at h ⊢
    exact annotate_of_not_changed names x h

theorem replaceAllFuel_decomp (old new : List Char) (h0 : old ≠ []) :
    ∀ (fuel : Nat) (c : List Char), c.length ≤ fuel →
      ∃ (segs : List (List Char)) (k : Nat), segs.length = k + 1
        ∧ c = interleave segs (List.replicate k old)
        ∧ replaceAllFuel old new fuel c = interleave segs (List.replicate k new) := by
  intro fuel
  induction fuel with
  | zero =>
    intro c hc
    have hnil : c = [] := by
      cases c with
      | nil => rfl
      | cons x s => simp at hc
    subst hnil
    exact ⟨[[]], 0, rfl, rfl, rfl⟩
  | succ n ih =>
    intro c hc
    cases c with
    | nil => exact ⟨[[]], 0, rfl, rfl, rfl⟩
    | cons x s =>
      by_cases hp : (!old.isEmpty && isPrefixCL old (x :: s)) = true
      · have hpre : isPrefixCL old (x :: s) = true := by
          simp only [Bool.and_eq_true] at hp
          exact hp.2
        have hsplit := isPrefixCL_append_drop old (x :: s) hpre
        have hlen1 : 1 ≤ old.length := by
          cases old with
          | nil => exact absurd rfl h0
          | cons _ _ => simp
        have hrest : (List.drop old.length (x :: s)).length ≤ n := by
          simp only [List.length_drop, List.length_cons]
          simp only [List.length_cons] at hc
          omega
        obtain ⟨segs, k, hsl, hin, hout⟩ := ih (List.drop old.length (x :: s)) hrest
        refine ⟨[] :: segs, k + 1, by simp [hsl], ?_, ?_⟩
        · simp only [List.replicate_succ, interleave, List.nil_append]
          rw [← hin, hsplit]
        · simp only [replaceAllFuel, hp, if_pos]
          simp only [List.replicate_succ, interleave, List.nil_append]
          rw [hout]
      · have hrest : s.length ≤ n := by
          simp only [List.length_cons] at hc
          omega
        obtain ⟨segs, k, hsl, hin, hout⟩ := ih s hrest
        cases segs with
        | nil => simp at hsl
        | cons g gs =>
          refine ⟨(x :: g) :: gs, k, by simpa using hsl, ?_, ?_⟩
          · rw [interleave_cons_head, ← hin]
          · simp only [replaceAllFuel, hp, if_neg]
            rw [interleave_cons_head, ← hout]
            simp [replaceAllFuel]

theorem replaceAll_decomp (old new c : List Char) (h0 : old ≠ []) :
    ∃ (segs : List (List Char)) (k : Nat), segs.length = k + 1
      ∧ c = interleave segs (List.replicate k old)
      ∧ replaceAll old new c = interleave segs (List.replicate k new) :=
  replaceAllFuel_decomp old new h0 c.length c (le_refl _)

theorem reSubFuel_decomp (r : RE) (t : Template) :
    ∀ (fuel : Nat) (s : List Char), s.length ≤ fuel →
      ∃ (segs ms rs : List (List Char)), segs.length = ms.length + 1
        ∧ rs.length = ms.length
        ∧ s = interleave segs ms
        ∧ (reSubFuel r t fuel s).1 = interleave segs rs
        ∧ ∀ m ∈ ms, fullMatchB r m = true := by
  intro fuel
  induction fuel with
  | zero =>
    intro s hs
    have hnil : s = [] := by
      cases s with
      | nil => rfl
      | cons x xs => simp at hs
    subst hnil
    cases hm : (mrun r []).head? with
    | none =>
      exact ⟨[[]], [], [], rfl, rfl, rfl, by simp [reSubFuel, hm, interleave], by simp⟩
    | some res =>
      have hres := head?_mem hm
      have hc : res.consumed = [] := by
        have := mrun_splits r [] res hres
        exact (List.append_eq_nil.mp this).1
      refine ⟨[[], []], [[]], [render t res.caps], rfl, rfl, rfl, ?_, ?_⟩
      · simp [reSubFuel, hm, interleave]
      · intro m hmm
        simp only [List.mem_singleton] at hmm
        subst hmm
        have := fullMatchB_of_mem r [] res hres
        rwa [hc] at this
  | succ n ih =>
    intro s hs
    cases s with
    | nil =>
      cases hm : (mrun r []).head? with
      | none =>
        exact ⟨[[]], [], [], rfl, rfl, rfl, by simp [reSubFuel, hm, interleave], by simp⟩
      | some res =>
        have hres := head?_mem hm
        have hc : res.consumed = [] := by
          have := mrun_splits r [] res hres
          exact (List.append_eq_nil.mp this).1
        refine ⟨[[], []], [[]], [render t res.caps], rfl, rfl, rfl, ?_, ?_⟩
        · simp [reSubFuel, hm, interleave]
        · intro m hmm
          simp only [List.mem_singleton] at hmm
          subst hmm
          have := fullMatchB_of_mem r [] res hres
          rwa [hc] at this
    | cons x xs =>
      have hxs : xs.length ≤ n := by
        simp only [List.length_cons] at hs
        omega
      cases hm : (mrun r (x :: xs)).head? with
      | none =>
        obtain ⟨segs, ms, rs, hsl, hrl, hin, hout, hfull⟩ := ih xs hxs
        cases segs with
        | nil => simp at hsl
        | cons g gs =>
          refine ⟨(x :: g) :: gs, ms, rs, by simpa using hsl, hrl, ?_, ?_, hfull⟩
          · rw [interleave_cons_head, ← hin]
          · simp only [reSubFuel, hm]
            rw [interleave_cons_head, ← hout]
      | some res =>
        have hres := head?_mem hm
        have hsplit := mrun_splits r (x :: xs) res hres
        by_cases hemp : res.consumed.isEmpty = true
        · have hc : res.consumed = [] := by
            cases hcc : res.consumed with
            | nil => rfl
            | cons _ _ => rw [hcc] at hemp; simp at hemp
          obtain ⟨segs, ms, rs, hsl, hrl, hin, hout, hfull⟩ := ih xs hxs
          cases segs with
          | nil => simp at hsl
          | cons g gs =>
            refine ⟨[] :: (x :: g) :: gs, [] :: ms, render t res.caps :: rs,
              by simpa using hsl, by simpa using hrl, ?_, ?_, ?_⟩
            · simp only [interleave, List.nil_append]
              rw [interleave_cons_head, ← hin]
            · simp only [reSubFuel, hm, hemp, if_pos]
              simp only [interleave, List.nil_append]
              rw [interleave_cons_head, ← hout]
            · intro m hmm
              simp only [List.mem_cons] at hmm
              rcases hmm with hmm | hmm
              · subst hmm
                have := fullMatchB_of_mem r (x :: xs) res hres
                rwa [hc] at this
              · exact hfull m hmm
        · have hlen1 : 1 ≤ res.consumed.length := by
            cases hcc : res.consumed with
            | nil => rw [hcc] at hemp; simp at hemp
            | cons _ _ => simp
          have hdrop : List.drop (res.consumed.length - 1) xs = res.rest := by
            have h1 : List.drop res.consumed.length (x :: xs) = res.rest := by
              rw [← hsplit]
              exact List.drop_left res.consumed res.rest
            obtain ⟨j, hj⟩ : ∃ j, res.consumed.length = j + 1 := ⟨res.consumed.length - 1, by omega⟩
            rw [hj] at h1
            simpa [hj] using h1
          have hrestlen : res.rest.length ≤ n := by
            have := congrArg List.length hsplit
            simp only [List.length_append, List.length_cons] at this
            simp only [List.length_cons] at hs
            omega
          obtain ⟨segs, ms, rs, hsl, hrl, hin, hout, hfull⟩ := ih res.rest (by rw [← hdrop]; rw [hdrop]; exact hrestlen)
          refine ⟨[] :: segs, res.consumed :: ms, render t res.caps :: rs,
            by simpa using hsl, by simpa using hrl, ?_, ?_, ?_⟩
          · cases segs with
            | nil => simp at hsl
            | cons g gs =>
              simp only [interleave, List.nil_append]
              rw [← hin, hsplit]
          · simp only [reSubFuel, hm, hemp, if_neg]
            cases segs with
            | nil => simp at hsl
            | cons g gs =>
              simp only [interleave, List.nil_append]
              rw [hdrop, ← hout]
              simp
          · intro m hmm
            simp only [List.mem_cons] at hmm
            rcases hmm with hmm | hmm
            · subst hmm
              exact fullMatchB_of_mem r (x :: xs) res hres
            · exact hfull m hmm

theorem reSub_decomp (r : RE) (t : Template) (s : List Char) :
    ∃ (segs ms rs : List (List Char)), segs.length = ms.length + 1
      ∧ rs.length = ms.length
      ∧ s = interleave segs ms
      ∧ (reSub r t s).1 = interleave segs rs
      ∧ ∀ m ∈ ms, fullMatchB r m = true :=
  reSubFuel_decomp r t s.length s (le_refl _)


/-- Validation of the regex engine on a positive instance: the nil-pointer
pattern rewrites a realistic test-file fragment, turning `t.Error` into
`t.Fatal` and keeping the surrounding text. -/
theorem nilPattern_rewrites_fragment :
    reSub nilPattern nilTemplate
      "\tif handler == nil \x7b\n\t\tt.Error(\"New should return a handler\")\n\t\x7d\n".data
    = ("\tif handler == nil \x7b\n\t\tt.Fatal(\"New should return a handler\")\n\t\x7d\n".data,
        true) := by decide

/-! ### Claim theorems -/

/-- C1 counterexample: the claim that applying any descriptor twice is
idempotent is false as stated: the catalog's own LiteralReplace 0644→0600,
applied to the content "0644644", rewrites it to "0600644", which again
contains "0644", so the second application reports a match (changed = true)
and changes the content again. -/
theorem C1_counterexample :
    (applyFix (FixKind.literalReplace "0644".data "0600".data)
        ((applyFix (FixKind.literalReplace "0644".data "0600".data) "0644644".data).1)).2
      = true
    ∧ (applyFix (FixKind.literalReplace "0644".data "0600".data)
        ((applyFix (FixKind.literalReplace "0644".data "0600".data) "0644644".data).1)).1
      ≠ (applyFix (FixKind.literalReplace "0644".data "0600".data) "0644644".data).1 := by
  decide

/-- C1 (amended): the second application of a descriptor is a no-op provided
the first application's output no longer matches the descriptor's pattern
(the second application's changed flag is false); this holds for
LiteralReplace, RegexReplace and AnnotateDeclarations alike. -/
theorem C1_second_application_noop (d : FixKind) (c : List Char)
    (h : (applyFix d ((applyFix d c).1)).2 = false) :
    (applyFix d ((applyFix d c).1)).1 = (applyFix d c).1 :=
  applyFix_noop_of_not_changed d _ h

/-- C1 witness: the amended statement at the catalog's permission descriptor
on "mode: 0644", whose first output "mode: 0600" contains no further
occurrence. -/
theorem C1_second_application_noop_witness :
    (applyFix (FixKind.literalReplace "0644".data "0600".data)
        ((applyFix (FixKind.literalReplace "0644".data "0600".data) "mode: 0644".data).1)).2
      = false
    ∧ (applyFix (FixKind.literalReplace "0644".data "0600".data)
        ((applyFix (FixKind.literalReplace "0644".data "0600".data) "mode: 0644".data).1)).1
      = (applyFix (FixKind.literalReplace "0644".data "0600".data) "mode: 0644".data).1 :=
  ⟨by decide, C1_second_application_noop _ _ (by decide)⟩

/-- C2 counterexample: the claim that the runner writes only when the
transformed content differs is false: `fix_nil_pointer_checks` writes every
existing target back unconditionally — on a file whose content has no match,
the write log records a write whose bytes equal the original content. -/
theorem C2_counterexample :
    fix_nil_pointer_checks
      ⟨[("internal/server/handlers/abductive_test.go", "package handlers\n".data)], []⟩
    = ⟨[("internal/server/handlers/abductive_test.go", "package handlers\n".data)],
       [("internal/server/handlers/abductive_test.go", "package handlers\n".data)]⟩ := by
  decide

/-- C2 (amended): only `fix_unused_assignments` guards its write by a match
test (no write when the old text is absent, one logged write when present);
the nil-pointer, permission, empty-branch and annotation fixers log a write
for every existing target file, whether or not the transformation changed the
content. -/
theorem C2_write_behavior :
    (∀ (st : RunState) (fx : UnusedFix) (c : List Char),
      fsLookup st.fs fx.file = some c → containsSub fx.old c = false →
        unusedAssignStep st fx = st)
    ∧ (∀ (st : RunState) (fx : UnusedFix) (c : List Char),
      fsLookup st.fs fx.file = some c → containsSub fx.old c = true →
        (unusedAssignStep st fx).writes
          = st.writes ++ [(fx.file, replaceAll fx.old fx.new c)])
    ∧ (∀ (st : RunState) (p : String) (c : List Char),
      fsLookup st.fs p = some c →
        (nilPointerStep st p).writes
          = st.writes ++ [(p, (reSub nilPattern nilTemplate c).1)])
    ∧ (∀ (st : RunState) (p : String) (c : List Char),
      fsLookup st.fs p = some c →
        (filePermStep st p).writes
          = st.writes ++ [(p, replaceAll "0644".data "0600".data c)])
    ∧ (∀ (st : RunState) (c : List Char),
      fsLookup st.fs configPath = some c →
        (fix_empty_branch st).writes
          = st.writes ++ [(configPath, replaceAll emptyBranchOld emptyBranchNew c)])
    ∧ (∀ (st : RunState) (it : UnusedItem) (c : List Char),
      fsLookup st.fs it.file = some c →
        (removeUnusedStep st it).writes
          = st.writes ++ [(it.file, annotateFileContent it.items c)]) := by
  refine ⟨?_, ?_, ?_, ?_, ?_, ?_⟩
  · intro st fx c h hc
    simp [unusedAssignStep, h, hc]
  · intro st fx c h hc
    simp [unusedAssignStep, h, hc, doWrite]
  · intro st p c h
    simp [nilPointerStep, h, doWrite]
  · intro st p c h
    simp [filePermStep, h, doWrite]
  · intro st c h
    simp [fix_empty_branch, h, doWrite]
  · intro st it c h
    simp [removeUnusedStep, h, doWrite]

/-- C2 witness: each conjunct of the amended statement at a concrete one-file
state. -/
theorem C2_write_behavior_witness :
    unusedAssignStep ⟨[("f", "abc".data)], []⟩ ⟨"f", "x".data, "y".data⟩
        = ⟨[("f", "abc".data)], []⟩
    ∧ (unusedAssignStep ⟨[("f", "abc".data)], []⟩ ⟨"f", "b".data, "Z".data⟩).writes
        = [] ++ [("f", replaceAll "b".data "Z".data "abc".data)]
    ∧ (nilPointerStep ⟨[("g", "hi".data)], []⟩ "g").writes
        = [] ++ [("g", (reSub nilPattern nilTemplate "hi".data).1)]
    ∧ (filePermStep ⟨[("h", "0644".data)], []⟩ "h").writes
        = [] ++ [("h", replaceAll "0644".data "0600".data "0644".data)]
    ∧ (fix_empty_branch ⟨[(configPath, "z".data)], []⟩).writes
        = [] ++ [(configPath, replaceAll emptyBranchOld emptyBranchNew "z".data)]
    ∧ (removeUnusedStep ⟨[("k", "m\n".data)], []⟩ ⟨"k", ["m".data]⟩).writes
        = [] ++ [("k", annotateFileContent ["m".data] "m\n".data)] :=
  ⟨C2_write_behavior.1 ⟨[("f", "abc".data)], []⟩ ⟨"f", "x".data, "y".data⟩ "abc".data
      (by decide) (by decide),
   C2_write_behavior.2.1 ⟨[("f", "abc".data)], []⟩ ⟨"f", "b".data, "Z".data⟩ "abc".data
      (by decide) (by decide),
   C2_write_behavior.2.2.1 ⟨[("g", "hi".data)], []⟩ "g" "hi".data (by decide),
   C2_write_behavior.2.2.2.1 ⟨[("h", "0644".data)], []⟩ "h" "0644".data (by decide),
   C2_write_behavior.2.2.2.2.1 ⟨[(configPath, "z".data)], []⟩ "z".data (by decide),
   C2_write_behavior.2.2.2.2.2 ⟨[("k", "m\n".data)], []⟩ ⟨"k", ["m".data]⟩ "m\n".data
      (by decide)⟩

/-- C3 counterexample: the claim is false on the code: the annotator checks
for the marker in the same line only, not the preceding one, so a declaration
line whose immediately preceding line is already the marker is marked again —
re-running the annotator on its own output duplicates the marker. -/
theorem C3_counterexample :
    annotateFileContent ["toLower".data]
        (markerLine ++ "func toLower() \x7b\n".data)
      = markerLine ++ (markerLine ++ "func toLower() \x7b\n".data) := by
  decide

/-- C3 (amended): the annotator skips a line only when the marker text occurs
within that same line: for any names and any line containing
"//nolint:unused", the marking pass leaves the line unchanged. -/
theorem C3_marker_same_line_skip (names : List (List Char)) (line : List Char)
    (h : containsSub nolintTag line = true) : markLinePass names line = line := by
  rw [markLinePass_collapse]
  simp [anyDeclCond, h]

/-- C3 witness: a line that is itself the marker line is left unchanged. -/
theorem C3_marker_same_line_skip_witness :
    containsSub nolintTag markerLine = true
    ∧ markLinePass ["toLower".data] markerLine = markerLine :=
  ⟨by decide, C3_marker_same_line_skip ["toLower".data] markerLine (by decide)⟩

/-- C4 counterexample: the claim's "identifier followed by whitespace" reading
is false on the code: in the line "toLower\t" the name occurs as an
identifier followed by whitespace (a tab), the line contains no declaration
keyword and is unmarked, so the claim says it is marked; but the code tests
for the name followed by a space character as a plain substring and leaves
the line unchanged. -/
theorem C4_counterexample :
    specMarks "toLower".data "toLower\t".data = true
    ∧ markLinePass ["toLower".data] "toLower\t".data = "toLower\t".data := by
  decide

/-- C4 (amended): the annotator marks a line iff some target name occurs in
the line, and the line contains "func " or "var " or the name followed by a
single space character as a plain substring (no identifier-boundary or
general-whitespace check), and "//nolint:unused" does not occur in the line;
a marked line is the marker prefixed to the original line. -/
theorem C4_code_marking_condition (names : List (List Char)) (line : List Char) :
    markLinePass names line
      = (if anyDeclCond names line then markerLine ++ line else line)
    ∧ (markLinePass names line ≠ line ↔ anyDeclCond names line = true) := by
  refine ⟨markLinePass_collapse names line, ?_⟩
  rw [markLinePass_collapse]
  by_cases h : anyDeclCond names line = true
  · simp [h, marker_prepend_ne line]
  · rw [Bool.not_eq_true] at h
    simp [h]

/-- C4 witness: the amended marking condition evaluated on a concrete marked
line. -/
theorem C4_code_marking_condition_witness :
    markLinePass ["toLower".data] "func toLower() \x7b\n".data
      = (if anyDeclCond ["toLower".data] "func toLower() \x7b\n".data
          then markerLine ++ "func toLower() \x7b\n".data
          else "func toLower() \x7b\n".data)
    ∧ (markLinePass ["toLower".data] "func toLower() \x7b\n".data
        ≠ "func toLower() \x7b\n".data
      ↔ anyDeclCond ["toLower".data] "func toLower() \x7b\n".data = true) :=
  C4_code_marking_condition ["toLower".data] "func toLower() \x7b\n".data

/-- C5: a descriptor whose target file is absent leaves the run state (file
system and write log) untouched, and the per-category fold simply continues
with the remaining descriptors. -/
theorem C5_absent_file_noop :
    (∀ (st : RunState) (p : String), fsLookup st.fs p = none → nilPointerStep st p = st)
    ∧ (∀ (st : RunState) (p : String), fsLookup st.fs p = none → filePermStep st p = st)
    ∧ (∀ st : RunState, fsLookup st.fs configPath = none → fix_empty_branch st = st)
    ∧ (∀ (st : RunState) (fx : UnusedFix), fsLookup st.fs fx.file = none →
        unusedAssignStep st fx = st)
    ∧ (∀ (st : RunState) (it : UnusedItem), fsLookup st.fs it.file = none →
        removeUnusedStep st it = st)
    ∧ (∀ (st : RunState) (p : String) (rest : List String), fsLookup st.fs p = none →
        List.foldl nilPointerStep st (p :: rest) = List.foldl nilPointerStep st rest) := by
  refine ⟨?_, ?_, ?_, ?_, ?_, ?_⟩
  · intro st p h; simp [nilPointerStep, h]
  · intro st p h; simp [filePermStep, h]
  · intro st h; simp [fix_empty_branch, h]
  · intro st fx h; simp [unusedAssignStep, h]
  · intro st it h; simp [removeUnusedStep, h]
  · intro st p rest h
    simp [List.foldl_cons, nilPointerStep, h]

/-- C5 witness: a missing file is skipped and the fold continues over the
remaining descriptors. -/
theorem C5_absent_file_noop_witness :
    nilPointerStep ⟨[], []⟩ "missing.go" = ⟨[], []⟩
    ∧ List.foldl nilPointerStep ⟨[], []⟩ ["missing.go"]
        = List.foldl nilPointerStep ⟨[], []⟩ [] :=
  ⟨C5_absent_file_noop.1 ⟨[], []⟩ "missing.go" (by decide),
   C5_absent_file_noop.2.2.2.2.2 ⟨[], []⟩ "missing.go" [] (by decide)⟩

/-- C6: LiteralReplace is a pure substring replacement of every
non-overlapping occurrence: on "mode: 0644, dir: 0644" the 0644→0600
descriptor yields "mode: 0600, dir: 0600" with changed = true, and regex
metacharacters in the pattern are not interpreted (".*" is replaced only
where it occurs literally). -/
theorem C6_literal_replace_example :
    applyFix (FixKind.literalReplace "0644".data "0600".data) "mode: 0644, dir: 0644".data
      = ("mode: 0600, dir: 0600".data, true)
    ∧ replaceAll ".*".data "X".data "a.*b.*c".data = "aXbXc".data := by
  decide

/-- C7: if the content does not contain, byte for byte, the exact multi-line
block the empty-branch fix expects, the transformation returns the content
unchanged; no whitespace normalization happens before matching. -/
theorem C7_empty_branch_exact_match (c : List Char)
    (h : containsSub emptyBranchOld c = false) :
    replaceAll emptyBranchOld emptyBranchNew c = c :=
  replaceAll_of_not_contains _ _ _ h

/-- C7 witness: the block with its tab indentation drifted to spaces is not
matched and passes through unchanged. -/
theorem C7_empty_branch_exact_match_witness :
    containsSub emptyBranchOld emptyBranchSpaced = false
    ∧ replaceAll emptyBranchOld emptyBranchNew emptyBranchSpaced = emptyBranchSpaced :=
  ⟨by decide, C7_empty_branch_exact_match emptyBranchSpaced (by decide)⟩

/-- C8: when the RegexReplace pattern has no match anywhere in the content,
the substitution returns the content unchanged and changed is false. -/
theorem C8_regex_no_match_identity (r : RE) (t : Template) (s : List Char)
    (h : hasMatchB r s = false) : reSub r t s = (s, false) := by
  have h2 : (reSub r t s).2 = false := by rw [reSub_snd]; exact h
  have h1 := reSub_fst_of_not_changed r t s h2
  exact Prod.ext h1 h2

/-- C8 witness: the nil-pointer pattern has no match in "hello" and the
substitution is the identity there. -/
theorem C8_regex_no_match_identity_witness :
    hasMatchB nilPattern "hello".data = false
    ∧ reSub nilPattern nilTemplate "hello".data = ("hello".data, false) :=
  ⟨by decide, C8_regex_no_match_identity nilPattern nilTemplate "hello".data (by decide)⟩

/-- C9: within one pass, a line receives at most one inserted marker even when
several names match it: the result is always either the original line or the
marker prefixed once to the original line, because the replacement is rebuilt
from the original line. -/
theorem C9_single_marker_per_line (names : List (List Char)) (line : List Char) :
    markLinePass names line = line ∨ markLinePass names line = markerLine ++ line := by
  rw [markLinePass_collapse]
  by_cases h : anyDeclCond names line = true
  · right; simp [h]
  · left; rw [Bool.not_eq_true] at h; simp [h]

/-- C10: the matchers change nothing outside matched occurrences: the input
decomposes into untouched segments interleaved with occurrences of the
pattern (oldText for LiteralReplace, full regex matches for RegexReplace),
and the output is the same segments, in the same order, interleaved with the
replacements. -/
theorem C10_untouched_regions :
    (∀ (old new c : List Char), old ≠ [] →
      ∃ (segs : List (List Char)) (k : Nat), segs.length = k + 1
        ∧ c = interleave segs (List.replicate k old)
        ∧ replaceAll old new c = interleave segs (List.replicate k new))
    ∧ (∀ (r : RE) (t : Template) (s : List Char),
      ∃ (segs ms rs : List (List Char)), segs.length = ms.length + 1
        ∧ rs.length = ms.length
        ∧ s = interleave segs ms
        ∧ (reSub r t s).1 = interleave segs rs
        ∧ ∀ m ∈ ms, fullMatchB r m = true) :=
  ⟨fun old new c h0 => replaceAll_decomp old new c h0,
   fun r t s => reSub_decomp r t s⟩

/-- C10 witness: the decomposition at the catalog's literal descriptor and at
the nil-pointer pattern on concrete inputs. -/
theorem C10_untouched_regions_witness :
    (∃ (segs : List (List Char)) (k : Nat), segs.length = k + 1
        ∧ "x 0644 y".data = interleave segs (List.replicate k "0644".data)
        ∧ replaceAll "0644".data "0600".data "x 0644 y".data
            = interleave segs (List.replicate k "0600".data))
    ∧ (∃ (segs ms rs : List (List Char)), segs.length = ms.length + 1
        ∧ rs.length = ms.length
        ∧ "ab".data = interleave segs ms
        ∧ (reSub nilPattern nilTemplate "ab".data).1 = interleave segs rs
        ∧ ∀ m ∈ ms, fullMatchB nilPattern m = true) :=
  ⟨C10_untouched_regions.1 "0644".data "0600".data "x 0644 y".data (by decide),
   C10_untouched_regions.2 nilPattern nilTemplate "ab".data⟩

end FixLint
